import Mathlib

/-!
Verification of the `rtab` table formatter (`src/main.rs`).

The embedding models the three pure functions of the program —
`Table::calculate_widths`, `Table::basic_format` and `Table::fancy_format` —
over Lean `String`s (lists of characters).  Machine-level details that the
claims depend on are kept faithfully:

* Rust `str::len` is the UTF-8 byte length (`strLen`);
* Rust `Formatter::pad` (the `{:width$}` fill) counts characters;
* `String::rfind` returns the *byte* offset of the matched character and
  `String::truncate` takes a *byte* length, panicking when it does not lie on
  a character boundary;
* the out-of-bounds indexing `self.widths[i]` panics.

Panics are modelled by `Option.none`; the `fmt::Write` sink is a `String`,
whose write operations cannot fail, so no error value ever arises and the
result type needs no separate error constructor.
-/

namespace RTab

/-- Rust `char::is_whitespace`: the Unicode `White_Space` property. -/
def rustIsWhitespace (c : Char) : Bool :=
  c == '\t' || c == '\n' || c == '\u000B' || c == '\u000C' || c == '\r' ||
  c == ' ' || c == '\u0085' || c == '\u00A0' || c == '\u1680' ||
  ('\u2000' ≤ c && c ≤ '\u200A') ||
  c == '\u2028' || c == '\u2029' || c == '\u202F' || c == '\u205F' || c == '\u3000'

/-- Rust `str::len`: the UTF-8 byte length of a string. -/
def strLen (s : String) : Nat := s.utf8ByteSize

/-- A struct containing all the necessary table data (struct `Table`). -/
structure Table where
  records : List (List String)
  widths : List Nat

/-- `Table::calculate_widths`: fold over the records starting from a zero
vector sized to the first record; each step zips the accumulator with the
record's fields and takes the pointwise maximum of the old entry and the
field's byte length (`(*e.0).max(e.1.len())`).  `zip` stops at the shorter
of the two sequences, exactly as Rust's `Iterator::zip` does. -/
def calculate_widths (records : List (List String)) : List Nat :=
  let len := (records.head?.map List.length).getD 0
  records.foldl (fun acc r => (acc.zip r).map (fun e => max e.1 (strLen e.2)))
    (List.replicate len 0)

/-- `spaces` copies of the space character (`{:<spaces$}` applied to `""`). -/
def spacesStr (n : Nat) : String := String.mk (List.replicate n ' ')

/-- Rust `{:width$}` / `{:<width$}` on a string: left-justify and pad with
spaces up to `width` characters (`Formatter::pad` counts characters); a
string longer than `width` is emitted in full. -/
def padTo (s : String) (width : Nat) : String :=
  s ++ String.mk (List.replicate (width - s.length) ' ')

/-- `{:─<width$}` applied to `""`: `width` horizontal-rule characters. -/
def hrule (width : Nat) : String := String.mk (List.replicate width '─')

/-- `output.rfind(|c| !char::is_whitespace(c))`: the byte offset of the last
character that is not whitespace, `none` when every character is whitespace. -/
def lastNonWsByteIdx : List Char → Option Nat
  | [] => none
  | c :: cs =>
    match lastNonWsByteIdx cs with
    | some i => some (c.utf8Size + i)
    | none => if rustIsWhitespace c then none else some 0

/-- Rust `String::truncate`: keep the first `len` bytes; no effect when `len`
is at least the byte length; panic (`none`) when `len` falls strictly inside
a character's UTF-8 encoding. -/
def takeBytes : List Char → Nat → Option (List Char)
  | _, 0 => some []
  | [], _ => some []
  | c :: cs, len =>
    if c.utf8Size ≤ len then (takeBytes cs (len - c.utf8Size)).map (c :: ·)
    else none

/-- The trailing-whitespace trim of `basic_format`:
`let len = output.rfind(|c| !char::is_whitespace(c)).unwrap_or(0) + 1;
output.truncate(len);`. -/
def trimRow (out : String) : Option String :=
  let len := (lastNonWsByteIdx out.data).getD 0 + 1
  (takeBytes out.data len).map String.mk

/-- The field loop of `basic_format`:
`write!(output, "{:width$}", field, width = self.widths[i] + spaces)?`
for each field, with `none` modelling the panic when `self.widths[i]` is out
of bounds. -/
def writeFields (widths : List Nat) (spaces : Nat) :
    List String → Nat → String → Option String
  | [], _, out => some out
  | f :: fs, i, out =>
    match widths[i]? with
    | none => none
    | some w => writeFields widths spaces fs (i + 1) (out ++ padTo f (w + spaces))

/-- The record loop of `basic_format`: emit the padded fields, trim the
buffer's trailing whitespace, append a newline. -/
def basicRows (widths : List Nat) (spaces : Nat) :
    List (List String) → String → Option String
  | [], out => some out
  | r :: rs, out => do
    let out1 ← writeFields widths spaces r 0 out
    let out2 ← trimRow out1
    basicRows widths spaces rs (out2 ++ "\n")

/-- `Table::basic_format`. -/
def Table.basic_format (t : Table) (spaces : Nat) : Option String :=
  basicRows t.widths spaces t.records ""

/-- The border segments of `fancy_format`: for column `i`, the corner or
junction character (`c0` at column 0, `cn` elsewhere) followed by a rule of
`width + spaces * 2` horizontal characters. -/
def borderSegs (c0 cn : String) (widths : List Nat) (spaces : Nat) : List String :=
  widths.enum.map (fun p => (if p.1 = 0 then c0 else cn) ++ hrule (p.2 + spaces * 2))

/-- The concatenated border segments of one border line. -/
def borderBody (c0 cn : String) (widths : List Nat) (spaces : Nat) : String :=
  String.join (borderSegs c0 cn widths spaces)

/-- The initial separator of `fancy_format` (`┌`/`┬` corners, closed by `┐`). -/
def topBorder (widths : List Nat) (spaces : Nat) : String :=
  borderBody "┌" "┬" widths spaces ++ "┐\n"

/-- A row separator of `fancy_format` (`├`/`┼` junctions, closed by `┤`). -/
def midBorder (widths : List Nat) (spaces : Nat) : String :=
  borderBody "├" "┼" widths spaces ++ "┤\n"

/-- The final separator of `fancy_format` (`└`/`┴` corners, closed by `┘`). -/
def botBorder (widths : List Nat) (spaces : Nat) : String :=
  borderBody "└" "┴" widths spaces ++ "┘\n"

/-- The field loop of a fancy data row:
`write!(output, "│{:<spaces$}{:width$}{:<spaces$}", "", field, "", ...)?`,
with `none` modelling the panic when `self.widths[j]` is out of bounds. -/
def fancyFields (widths : List Nat) (spaces : Nat) :
    List String → Nat → String → Option String
  | [], _, out => some out
  | f :: fs, j, out =>
    match widths[j]? with
    | none => none
    | some w =>
      fancyFields widths spaces fs (j + 1)
        (out ++ "│" ++ spacesStr spaces ++ padTo f w ++ spacesStr spaces)

/-- The separator condition of `fancy_format`:
`(separators && i > 0) || (headers && i == 1)`. -/
def sepCond (headers separators : Bool) (i : Nat) : Bool :=
  (separators && !(i == 0)) || (headers && (i == 1))

/-- The record loop of `fancy_format`, carrying the row index `i`: a row
separator is emitted before row `i` when
`(separators && i > 0) || (headers && i == 1)`, then the data row itself
followed by the closing `│` and a newline. -/
def fancyRows (widths : List Nat) (spaces : Nat) (headers separators : Bool) :
    List (List String) → Nat → String → Option String
  | [], _, out => some out
  | r :: rs, i, out => do
    let out0 := if sepCond headers separators i
      then out ++ midBorder widths spaces else out
    let out1 ← fancyFields widths spaces r 0 out0
    fancyRows widths spaces headers separators rs (i + 1) (out1 ++ "│\n")

/-- `Table::fancy_format`: top border, the record loop from index 0, and the
bottom border. -/
def Table.fancy_format (t : Table) (headers separators : Bool) (spaces : Nat) :
    Option String := do
  let out1 ← fancyRows t.widths spaces headers separators t.records 0
    (topBorder t.widths spaces)
  some (out1 ++ botBorder t.widths spaces)

/-- The total UTF-8 byte length of a character list (proof infrastructure). -/
def byteLen : List Char → Nat
  | [] => 0
  | c :: cs => c.utf8Size + byteLen cs

/-- The string written for one record by the basic field loop, as a pure
function of the record: field `i` padded to `widths[i] + spaces` characters,
concatenated in order.  `writeFields` produces exactly this once every index
is known to be in bounds. -/
def rawRow (widths : List Nat) (spaces : Nat) : List String → Nat → String
  | [], _ => ""
  | f :: fs, i => padTo f (widths.getD i 0 + spaces) ++ rawRow widths spaces fs (i + 1)

/-- The characters of a rendered basic line: the row's raw characters
truncated after the last non-whitespace character (the trim step of
`basic_format`). -/
def renderLine (widths : List Nat) (spaces : Nat) (r : List String) : List Char :=
  let raw := (rawRow widths spaces r 0).data
  raw.take ((lastNonWsByteIdx raw).getD 0 + 1)

/-- The characters of the full `basic_format` output: every record's
rendered line followed by a newline. -/
def linesChars (widths : List Nat) (spaces : Nat) (rs : List (List String)) : List Char :=
  (rs.map (fun r => renderLine widths spaces r ++ ['\n'])).flatten

/-- The string written for one record by the fancy field loop, as a pure
function of the record. -/
def fancyRowStr (widths : List Nat) (spaces : Nat) : List String → Nat → String
  | [], _ => ""
  | f :: fs, j =>
    "│" ++ spacesStr spaces ++ padTo f (widths.getD j 0) ++ spacesStr spaces ++
      fancyRowStr widths spaces fs (j + 1)

/-- The string written by the fancy record loop from row index `i` on, as a
pure function of the records: an optional separator line, the data row, the
closing `│` and newline, then the remaining rows. -/
def fancyRowsStr (widths : List Nat) (spaces : Nat) (headers separators : Bool) :
    List (List String) → Nat → String
  | [], _ => ""
  | r :: rs, i =>
    (if sepCond headers separators i then midBorder widths spaces else "") ++
      (fancyRowStr widths spaces r 0 ++
        ("│\n" ++ fancyRowsStr widths spaces headers separators rs (i + 1)))

/-- How many of the `n` row indices `i, i+1, ..., i+n-1` satisfy the
separator condition. -/
def countSep (headers separators : Bool) : Nat → Nat → Nat
  | _, 0 => 0
  | i, n + 1 => (if sepCond headers separators i then 1 else 0) + countSep headers separators (i + 1) n

/-- Split a character sequence at newline characters; a trailing newline
yields a final empty piece. -/
def splitLines : List Char → List (List Char)
  | [] => [[]]
  | c :: cs =>
    if c = '\n' then [] :: splitLines cs
    else
      match splitLines cs with
      | l :: ls => (c :: l) :: ls
      | [] => [[c]]

/-- Whether a character sequence ends in a (Rust) whitespace character. -/
def hasTrailingWs (cs : List Char) : Bool :=
  match cs.getLast? with
  | some c => rustIsWhitespace c
  | none => false

theorem byteLen_append (a b : List Char) :
    byteLen (a ++ b) = byteLen a + byteLen b := by
  induction a with
  | nil => simp [byteLen]
  | cons c a ih => simp [byteLen, ih, Nat.add_assoc]

theorem widthsFold_length (rs : List (List String)) :
    ∀ acc : List Nat,
      (rs.foldl (fun acc r => (acc.zip r).map (fun e => max e.1 (strLen e.2)))
          acc).length =
        rs.foldl (fun m r => min m r.length) acc.length := by
  induction rs with
  | nil => intro acc; rfl
  | cons r rs ih =>
    intro acc
    simp only [List.foldl_cons, ih, List.length_map, List.length_zip]

/-- Claim C3, amended: the sequence returned by `calculate_widths` has length
equal to the *minimum* field count over all records (`0` if there are no
records), because each fold step zips the accumulator with the record and
`zip` stops at the shorter sequence.  For rectangular inputs this minimum is
the first record's field count, so the `Table` invariant holds there; for
ragged inputs with a later, shorter record it does not (see the
counterexample). -/
theorem calculate_widths_length (records : List (List String)) :
    (calculate_widths records).length =
      (records.map List.length).foldl min ((records.head?.map List.length).getD 0) := by
  unfold calculate_widths
  rw [List.foldl_map, widthsFold_length, List.length_replicate]

/-- Claim C3, counterexample: on the ragged input `[["a","b"], ["c"]]` the
first record has 2 fields but `calculate_widths` returns a sequence of
length 1 (the zip against the shorter second record shrinks the
accumulator), so the output length is not the field count of the first
record. -/
theorem calculate_widths_length_cex :
    (calculate_widths [["a", "b"], ["c"]]).length ≠ 2 := by decide

theorem le_foldl_max (l : List Nat) : ∀ init : Nat, init ≤ l.foldl max init := by
  induction l with
  | nil => intro init; exact Nat.le_refl _
  | cons b l ih =>
    intro init
    exact Nat.le_trans (Nat.le_max_left init b) (ih (max init b))

theorem mem_le_foldl_max {a : Nat} (l : List Nat) (h : a ∈ l) :
    ∀ init : Nat, a ≤ l.foldl max init := by
  induction l with
  | nil => cases h
  | cons b l ih =>
    intro init
    rcases List.mem_cons.mp h with rfl | h'
    · exact Nat.le_trans (Nat.le_max_right init a) (le_foldl_max l _)
    · exact ih h' _

theorem foldl_min_const (l : List Nat) : ∀ a : Nat, (∀ x ∈ l, a ≤ x) → l.foldl min a = a := by
  induction l with
  | nil => intro a _; rfl
  | cons b l ih =>
    intro a h
    have hb : min a b = a := Nat.min_eq_left (h b (by simp))
    simp only [List.foldl_cons, hb]
    exact ih a (fun x hx => h x (by simp [hx]))

theorem widthsFold_getD (rs : List (List String)) :
    ∀ acc : List Nat, (∀ r ∈ rs, acc.length ≤ r.length) →
      ∀ i, i < acc.length →
        (rs.foldl (fun acc r => (acc.zip r).map (fun e => max e.1 (strLen e.2)))
              acc).getD i 0 =
          rs.foldl (fun m r => max m (strLen (r.getD i ""))) (acc.getD i 0) := by
  induction rs with
  | nil => intro acc _ i _; rfl
  | cons r rs ih =>
    intro acc hle i hi
    have hlen : acc.length ≤ r.length := hle r (by simp)
    have hstep_len :
        ((acc.zip r).map (fun e => max e.1 (strLen e.2))).length = acc.length := by
      simp only [List.length_map, List.length_zip]
      omega
    have hir : i < r.length := Nat.lt_of_lt_of_le hi hlen
    have hi' : i < ((acc.zip r).map (fun e => max e.1 (strLen e.2))).length := by
      rw [hstep_len]; exact hi
    have hstep_getD :
        ((acc.zip r).map (fun e => max e.1 (strLen e.2))).getD i 0 =
          max (acc.getD i 0) (strLen (r.getD i "")) := by
      rw [List.getD_eq_getElem _ _ hi', List.getD_eq_getElem _ _ hi,
        List.getD_eq_getElem _ _ hir]
      simp [List.getElem_zip]
    rw [List.foldl_cons, ih _ (fun r' hr' => by rw [hstep_len]; exact hle r' (by simp [hr']))
      i (by rw [hstep_len]; exact hi), hstep_getD, List.foldl_cons]

/-- Claim C4: for every non-empty rectangular record set, `calculate_widths`
returns one entry per column of the first record, the entry at column `i`
is the maximum field byte-length (Rust `str::len`) observed in column `i`
across all records, and hence every width is at least the length of every
field in its column. -/
theorem calculate_widths_max (records : List (List String))
    (hne : records ≠ [])
    (hrect : ∀ r ∈ records, r.length = (records.headD []).length) :
    (calculate_widths records).length = (records.headD []).length ∧
      ∀ i, i < (calculate_widths records).length →
        ((calculate_widths records).getD i 0 =
            (records.map (fun r => strLen (r.getD i ""))).foldl max 0 ∧
          ∀ r ∈ records, strLen (r.getD i "") ≤ (calculate_widths records).getD i 0) := by
  obtain ⟨r0, rs, rfl⟩ : ∃ r0 rs, records = r0 :: rs := by
    cases records with
    | nil => exact absurd rfl hne
    | cons a l => exact ⟨a, l, rfl⟩
  set records := r0 :: rs with hrec
  have hhead : records.headD [] = r0 := rfl
  have hinit : (records.head?.map List.length).getD 0 = r0.length := rfl
  have hlen : (calculate_widths records).length = r0.length := by
    unfold calculate_widths
    rw [hinit, widthsFold_length, List.length_replicate, ← List.foldl_map List.length min]
    exact foldl_min_const (records.map List.length) r0.length
      (fun x hx => by
        obtain ⟨r, hr, rfl⟩ := List.mem_map.mp
          (by simpa using hx)
        rw [hrect r hr, hhead])
  refine ⟨hlen, fun i hi => ?_⟩
  have hi0 : i < r0.length := hlen ▸ hi
  have hacc : ∀ r ∈ records, (List.replicate r0.length (0 : Nat)).length ≤ r.length := by
    intro r hr
    rw [List.length_replicate, hrect r hr, hhead]
  have hgetD : (calculate_widths records).getD i 0 =
      records.foldl (fun m r => max m (strLen (r.getD i ""))) 0 := by
    unfold calculate_widths
    rw [hinit, widthsFold_getD records (List.replicate r0.length 0) hacc i
      (by rw [List.length_replicate]; exact hi0)]
    congr 1
    simp [List.getD_eq_getElem?_getD, List.getElem?_replicate, hi0]
  have hmap : records.foldl (fun m r => max m (strLen (r.getD i ""))) 0 =
      (records.map (fun r => strLen (r.getD i ""))).foldl max 0 :=
    (List.foldl_map _ _ _ _).symm
  refine ⟨hgetD.trans hmap, fun r hr => ?_⟩
  rw [hgetD, hmap]
  exact mem_le_foldl_max _
    (List.mem_map_of_mem (fun r => strLen (r.getD i "")) hr) 0

/-- Claim C4, witness: the theorem applied to the concrete rectangular
record set `[["a","bb"], ["cc","d"]]` at column 0, whose width evaluates to
the column maximum 2. -/
theorem calculate_widths_max_witness :
    (calculate_widths [["a", "bb"], ["cc", "d"]]).getD 0 0 =
      ([["a", "bb"], ["cc", "d"]].map (fun r => strLen (r.getD 0 ""))).foldl max 0 :=
  ((calculate_widths_max [["a", "bb"], ["cc", "d"]] (by decide) (by decide)).2 0
    (by decide)).1

/-- Claim C5: on records `[["a","bb"], ["cc","d"]]`, `calculate_widths`
returns `[2, 2]` and `basic_format` with spacing 1 returns exactly the two
newline-terminated lines `"a  bb"` and `"cc d"`, the trailing padding of the
last column having been trimmed. -/
theorem scenario_a :
    calculate_widths [["a", "bb"], ["cc", "d"]] = [2, 2] ∧
      Table.basic_format
          ⟨[["a", "bb"], ["cc", "d"]], calculate_widths [["a", "bb"], ["cc", "d"]]⟩ 1 =
        some "a  bb\ncc d\n" :=
  ⟨by decide, by decide⟩

/-- Claim C7: on an empty record sequence `basic_format` returns the empty
string, and `fancy_format` returns just the top-border and bottom-border
lines, each obtained by iterating over the empty width sequence (so each
consists solely of its closing corner character), with no data lines and no
separator lines in between — for every choice of flags and spacing. -/
theorem empty_table_formats (headers separators : Bool) (spaces : Nat) :
    Table.basic_format ⟨[], calculate_widths []⟩ spaces = some "" ∧
      Table.fancy_format ⟨[], calculate_widths []⟩ headers separators spaces =
        some "┐\n┘\n" :=
  ⟨rfl, rfl⟩

/-- Claim C9: `calculate_widths`, `basic_format` and `fancy_format` are
deterministic pure functions of their inputs: runs on equal records and
equal option values produce identical output.  In this shallow embedding all
three are total Lean functions of exactly these arguments, so the property
is congruence of function application. -/
theorem formats_deterministic (t1 t2 : Table) (h : t1 = t2)
    (hd1 hd2 sp1 sp2 : Bool) (s1 s2 : Nat)
    (hh : hd1 = hd2) (hs : sp1 = sp2) (hsp : s1 = s2) :
    calculate_widths t1.records = calculate_widths t2.records ∧
      t1.basic_format s1 = t2.basic_format s2 ∧
      t1.fancy_format hd1 sp1 s1 = t2.fancy_format hd2 sp2 s2 := by
  subst h; subst hh; subst hs; subst hsp
  exact ⟨rfl, rfl, rfl⟩

/-- Claim C9, witness: the determinism theorem applied at a concrete table
and concrete options. -/
theorem formats_deterministic_witness :
    calculate_widths (Table.records ⟨[["a"]], [1]⟩) =
        calculate_widths (Table.records ⟨[["a"]], [1]⟩) ∧
      Table.basic_format ⟨[["a"]], [1]⟩ 2 = Table.basic_format ⟨[["a"]], [1]⟩ 2 ∧
      Table.fancy_format ⟨[["a"]], [1]⟩ true false 2 =
        Table.fancy_format ⟨[["a"]], [1]⟩ true false 2 :=
  formats_deterministic ⟨[["a"]], [1]⟩ ⟨[["a"]], [1]⟩ rfl true true false false 2 2
    rfl rfl rfl

/-- Claim C1, counterexample: with `headers = true` and `separators = true`
on a 3-record table, the output contains 2 separator lines (each separator
line contributes exactly one `┤` character and nothing else does), not 1:
the separator condition `(separators && i > 0) || (headers && i == 1)` lets
`separators` fire at every row after the first, so `headers` does not take
precedence. -/
theorem fancy_separator_count_cex :
    (Table.fancy_format ⟨[["a"], ["b"], ["c"]], calculate_widths [["a"], ["b"], ["c"]]⟩
          true true 1).map (fun o => o.data.count '┤') ≠ some 1 := by decide

/-- Claim C2, counterexample: on records `[["a","b"], ["",""]]` with spacing
1, the second row writes only whitespace, so the trailing-whitespace trim
(which scans the whole output buffer) also removes the newline of the first
row; `basic_format` returns `"a b\n"`, a single line for two records. -/
theorem basic_format_lines_cex :
    (Table.basic_format
          ⟨[["a", "b"], ["", ""]], calculate_widths [["a", "b"], ["", ""]]⟩ 1).map
        (fun o => o.data.count '\n') ≠ some 2 := by decide

/-- Claim C10, counterexample: on the ragged table with records
`[["a"], ["b","c"]]` (so `calculate_widths` returns `[1]`), `basic_format`
does not return a success value at all: rendering the second record indexes
`widths[1]`, which is out of bounds and panics (`none`). -/
theorem basic_format_ok_cex :
    Table.basic_format ⟨[["a"], ["b", "c"]], calculate_widths [["a"], ["b", "c"]]⟩ 1 =
      none := by decide

theorem writeFields_eq (widths : List Nat) (spaces : Nat) :
    ∀ (fs : List String) (i : Nat) (out : String), i + fs.length ≤ widths.length →
      writeFields widths spaces fs i out = some (out ++ rawRow widths spaces fs i) := by
  intro fs
  induction fs with
  | nil => intro i out _; simp [writeFields, rawRow]
  | cons f fs ih =>
    intro i out h
    have hi : i < widths.length := by
      simp only [List.length_cons] at h
      omega
    have hnext : i + 1 + fs.length ≤ widths.length := by
      simp only [List.length_cons] at h
      omega
    simp only [writeFields, List.getElem?_eq_getElem hi, rawRow,
      List.getD_eq_getElem widths 0 hi, ih (i + 1) _ hnext, String.append_assoc]

theorem fancyFields_eq (widths : List Nat) (spaces : Nat) :
    ∀ (fs : List String) (j : Nat) (out : String), j + fs.length ≤ widths.length →
      fancyFields widths spaces fs j out = some (out ++ fancyRowStr widths spaces fs j) := by
  intro fs
  induction fs with
  | nil => intro j out _; simp [fancyFields, fancyRowStr]
  | cons f fs ih =>
    intro j out h
    have hj : j < widths.length := by
      simp only [List.length_cons] at h
      omega
    have hnext : j + 1 + fs.length ≤ widths.length := by
      simp only [List.length_cons] at h
      omega
    simp only [fancyFields, List.getElem?_eq_getElem hj, fancyRowStr,
      List.getD_eq_getElem widths 0 hj, ih (j + 1) _ hnext, String.append_assoc]

theorem fancyRows_eq (widths : List Nat) (spaces : Nat) (headers separators : Bool) :
    ∀ (rs : List (List String)) (i : Nat) (out : String),
      (∀ r ∈ rs, r.length ≤ widths.length) →
      fancyRows widths spaces headers separators rs i out =
        some (out ++ fancyRowsStr widths spaces headers separators rs i) := by
  intro rs
  induction rs with
  | nil => intro i out _; simp [fancyRows, fancyRowsStr]
  | cons r rs ih =>
    intro i out hfit
    have hr : r.length ≤ widths.length := hfit r (by simp)
    have hrs : ∀ r' ∈ rs, r'.length ≤ widths.length := fun r' h' => hfit r' (by simp [h'])
    have hsplit :
        (if sepCond headers separators i = true then out ++ midBorder widths spaces
          else out) =
          out ++ (if sepCond headers separators i = true then midBorder widths spaces
            else "") := by
      cases sepCond headers separators i <;> simp
    simp only [fancyRows, fancyRowsStr, hsplit, Bind.bind, Option.bind,
      fancyFields_eq widths spaces r 0 _ (by simpa using hr),
      ih (i + 1) _ hrs, String.append_assoc]

theorem fancy_format_eq (t : Table) (headers separators : Bool) (spaces : Nat)
    (hfit : ∀ r ∈ t.records, r.length ≤ t.widths.length) :
    t.fancy_format headers separators spaces =
      some (topBorder t.widths spaces ++
        (fancyRowsStr t.widths spaces headers separators t.records 0 ++
          botBorder t.widths spaces)) := by
  simp only [Table.fancy_format, Bind.bind, Option.bind,
    fancyRows_eq t.widths spaces headers separators t.records 0 _ hfit,
    String.append_assoc]

/-- Claim C8: whenever every record's field count is at most
`widths.length` (in particular for every rectangular table satisfying the
`Table` invariant), the per-field width lookups `widths[i]` in both
formatters are always in bounds: the basic and fancy field loops never hit
the out-of-bounds (panic) branch, and `fancy_format` — whose only panic
source is that lookup — returns a value. -/
theorem width_indexing_in_bounds (t : Table) (spaces : Nat) (headers separators : Bool)
    (hfit : ∀ r ∈ t.records, r.length ≤ t.widths.length) :
    (∀ r ∈ t.records, ∀ out, (writeFields t.widths spaces r 0 out).isSome) ∧
      (∀ r ∈ t.records, ∀ out, (fancyFields t.widths spaces r 0 out).isSome) ∧
      (t.fancy_format headers separators spaces).isSome := by
  refine ⟨fun r hr out => ?_, fun r hr out => ?_, ?_⟩
  · rw [writeFields_eq t.widths spaces r 0 out (by simpa using hfit r hr)]
    rfl
  · rw [fancyFields_eq t.widths spaces r 0 out (by simpa using hfit r hr)]
    rfl
  · rw [fancy_format_eq t headers separators spaces hfit]
    rfl

/-- Claim C8, witness: the in-bounds theorem applied to the concrete
rectangular table of scenario B. -/
theorem width_indexing_in_bounds_witness :
    (Table.fancy_format ⟨[["a", "bb"], ["cc", "d"]], [2, 2]⟩ false false 1).isSome :=
  (width_indexing_in_bounds ⟨[["a", "bb"], ["cc", "d"]], [2, 2]⟩ 1 false false
    (by decide)).2.2

theorem count_data_append (a b : String) (c : Char) :
    (a ++ b).data.count c = a.data.count c + b.data.count c := by
  rw [String.data_append, List.count_append]

theorem join_foldl (l : List String) :
    ∀ a : String, l.foldl (fun r s => r ++ s) a = a ++ String.join l := by
  induction l with
  | nil => intro a; simp [String.join]
  | cons s l ih =>
    intro a
    have hj : String.join (s :: l) = s ++ String.join l := by
      show (s :: l).foldl (fun r s => r ++ s) "" = _
      rw [List.foldl_cons, ih ("" ++ s), String.empty_append]
    rw [List.foldl_cons, ih (a ++ s), hj, String.append_assoc]

theorem count_join_zero (l : List String) (c : Char)
    (h : ∀ s ∈ l, s.data.count c = 0) : (String.join l).data.count c = 0 := by
  induction l with
  | nil => rfl
  | cons s l ih =>
    have hj : String.join (s :: l) = s ++ String.join l := by
      show (s :: l).foldl (fun r s => r ++ s) "" = _
      rw [List.foldl_cons, join_foldl, String.empty_append]
    rw [hj, count_data_append, h s (by simp), ih (fun s' hs' => h s' (by simp [hs']))]

theorem count_hrule (n : Nat) (c : Char) (hc : c ≠ '─') :
    (hrule n).data.count c = 0 :=
  List.count_eq_zero.mpr (fun hmem => hc (List.eq_of_mem_replicate hmem))

theorem count_borderBody (c0 cn : String) (widths : List Nat) (spaces : Nat)
    (c : Char) (h0 : c0.data.count c = 0) (hn : cn.data.count c = 0) (hc : c ≠ '─') :
    (borderBody c0 cn widths spaces).data.count c = 0 := by
  apply count_join_zero
  intro s hs
  obtain ⟨p, _, rfl⟩ := List.mem_map.mp hs
  rw [count_data_append, count_hrule _ _ hc]
  cases Nat.decEq p.1 0 with
  | isTrue h => simp [h, h0]
  | isFalse h => simp [h, hn]

theorem count_midBorder (widths : List Nat) (spaces : Nat) :
    (midBorder widths spaces).data.count '┤' = 1 := by
  rw [midBorder, count_data_append,
    count_borderBody _ _ _ _ _ (by decide) (by decide) (by decide)]
  rfl

theorem count_topBorder (widths : List Nat) (spaces : Nat) :
    (topBorder widths spaces).data.count '┤' = 0 := by
  rw [topBorder, count_data_append,
    count_borderBody _ _ _ _ _ (by decide) (by decide) (by decide)]
  rfl

theorem count_botBorder (widths : List Nat) (spaces : Nat) :
    (botBorder widths spaces).data.count '┤' = 0 := by
  rw [botBorder, count_data_append,
    count_borderBody _ _ _ _ _ (by decide) (by decide) (by decide)]
  rfl

theorem count_padTo (f : String) (w : Nat) (c : Char) (hc : c ≠ ' ')
    (hf : c ∉ f.data) : (padTo f w).data.count c = 0 := by
  rw [padTo, count_data_append, List.count_eq_zero.mpr hf, Nat.zero_add]
  exact List.count_eq_zero.mpr (fun hmem => hc (List.eq_of_mem_replicate hmem))

theorem count_spacesStr (n : Nat) (c : Char) (hc : c ≠ ' ') :
    (spacesStr n).data.count c = 0 :=
  List.count_eq_zero.mpr (fun hmem => hc (List.eq_of_mem_replicate hmem))

theorem count_fancyRowStr (widths : List Nat) (spaces : Nat) (c : Char)
    (hc1 : c ≠ '│') (hc2 : c ≠ ' ') :
    ∀ (fs : List String) (j : Nat), (∀ f ∈ fs, c ∉ f.data) →
      (fancyRowStr widths spaces fs j).data.count c = 0 := by
  intro fs
  induction fs with
  | nil => intro j _; rfl
  | cons f fs ih =>
    intro j hf
    have hbar : ("│" : String).data.count c = 0 :=
      List.count_eq_zero.mpr (fun hmem => hc1 (by simpa using hmem))
    rw [fancyRowStr, count_data_append, count_data_append, count_data_append,
      count_data_append, count_spacesStr _ _ hc2,
      count_padTo _ _ _ hc2 (hf f (by simp)),
      ih (j + 1) (fun f' h' => hf f' (by simp [h'])), hbar]

theorem count_fancyRowsStr (widths : List Nat) (spaces : Nat) (headers separators : Bool) :
    ∀ (rs : List (List String)) (i : Nat), (∀ r ∈ rs, ∀ f ∈ r, '┤' ∉ f.data) →
      (fancyRowsStr widths spaces headers separators rs i).data.count '┤' =
        countSep headers separators i rs.length := by
  intro rs
  induction rs with
  | nil => intro i _; rfl
  | cons r rs ih =>
    intro i hf
    rw [fancyRowsStr, count_data_append, count_data_append, count_data_append,
      count_fancyRowStr widths spaces '┤' (by decide) (by decide) r 0 (hf r (by simp)),
      ih (i + 1) (fun r' h' => hf r' (by simp [h']))]
    have h2 : ("│\n" : String).data.count '┤' = 0 := by decide
    rw [h2]
    have h3 : (if sepCond headers separators i then midBorder widths spaces
        else "").data.count '┤' = if sepCond headers separators i then 1 else 0 := by
      cases sepCond headers separators i with
      | false => rfl
      | true => simp [count_midBorder]
    rw [h3, List.length_cons, countSep]
    omega

theorem countSep_sep_true (headers : Bool) :
    ∀ (n i : Nat), countSep headers true i n = if i = 0 then n - 1 else n := by
  intro n
  induction n with
  | zero => intro i; cases i <;> rfl
  | succ n ih =>
    intro i
    cases i with
    | zero =>
      have hc : sepCond headers true 0 = false := by
        cases headers <;> decide
      rw [countSep, hc, ih 1]
      simp
    | succ k =>
      have hc : sepCond headers true (k + 1) = true := by
        simp [sepCond]
      rw [countSep, hc, ih (k + 2)]
      rw [if_pos rfl, if_neg (show ¬(k + 2 = 0) by omega),
        if_neg (show ¬(k + 1 = 0) by omega)]
      omega

theorem countSep_ge_two :
    ∀ (n i : Nat), 2 ≤ i → countSep true false i n = 0 := by
  intro n
  induction n with
  | zero => intro i _; rfl
  | succ n ih =>
    intro i hi
    have hc : sepCond true false i = false := by
      simp only [sepCond, Bool.false_and, Bool.false_or, Bool.true_and]
      simp only [beq_eq_false_iff_ne, ne_eq]
      omega
    rw [countSep, hc, ih (i + 1) (by omega)]
    simp

theorem countSep_headers_start (n : Nat) :
    countSep true false 0 n = if 2 ≤ n then 1 else 0 := by
  match n with
  | 0 => rfl
  | 1 => rfl
  | m + 2 =>
    have h1 : sepCond true false 0 = false := by decide
    have h2 : sepCond true false 1 = true := by decide
    rw [countSep, h1, countSep, h2, countSep_ge_two m 2 (by omega),
      if_pos (show 2 ≤ m + 2 by omega)]
    simp

theorem countSep_none :
    ∀ (n i : Nat), countSep false false i n = 0 := by
  intro n
  induction n with
  | zero => intro i; rfl
  | succ n ih =>
    intro i
    have hc : sepCond false false i = false := by simp [sepCond]
    rw [countSep, hc, ih (i + 1)]
    simp

/-- Claim C1, amended: the number of separator lines in the `fancy_format`
output (counted via the `┤` character, which occurs exactly once per
separator line and nowhere else when no field contains it) is
`record_count - 1` whenever `separators` is true — regardless of `headers`,
so `separators`, not `headers`, dominates when both are set; with
`separators` false and `headers` true it is 1 for at least 2 records and 0
otherwise; with both false it is 0. -/
theorem fancy_separator_count (t : Table) (headers separators : Bool) (spaces : Nat)
    (hfit : ∀ r ∈ t.records, r.length ≤ t.widths.length)
    (hfields : ∀ r ∈ t.records, ∀ f ∈ r, '┤' ∉ f.data) :
    (t.fancy_format headers separators spaces).map (fun o => o.data.count '┤') =
      some (if separators then t.records.length - 1
        else if headers ∧ 2 ≤ t.records.length then 1 else 0) := by
  rw [fancy_format_eq t headers separators spaces hfit]
  simp only [Option.map_some']
  congr 1
  rw [count_data_append, count_data_append, count_topBorder, count_botBorder,
    count_fancyRowsStr t.widths spaces headers separators t.records 0 hfields,
    Nat.zero_add, Nat.add_zero]
  cases separators with
  | true =>
    rw [countSep_sep_true headers t.records.length 0, if_pos rfl]
    simp
  | false =>
    cases headers with
    | true =>
      rw [countSep_headers_start t.records.length]
      simp only [Bool.false_eq_true, if_false]
      by_cases h2 : 2 ≤ t.records.length
      · rw [if_pos h2, if_pos ⟨trivial, h2⟩]
      · rw [if_neg h2, if_neg (fun hcon => h2 hcon.2)]
    | false =>
      rw [countSep_none t.records.length 0]
      simp

/-- Claim C1, witness: the amended count theorem applied to a concrete
3-record table with `separators = true`, yielding 2 separator lines. -/
theorem fancy_separator_count_witness :
    (Table.fancy_format ⟨[["a"], ["b"], ["c"]], [1]⟩ false true 1).map
        (fun o => o.data.count '┤') = some 2 := by
  have h := fancy_separator_count ⟨[["a"], ["b"], ["c"]], [1]⟩ false true 1
    (by decide) (by decide)
  simpa using h

/-- Claim C6: on records `[["a","bb"], ["cc","d"]]` with spacing 1 and no
headers or separators, `fancy_format` returns exactly the four lines
`┌────┬────┐`, `│ a  │ bb │`, `│ cc │ d  │`, `└────┴────┘`; and in general
the border segment at column `i` of any border line (whose corner/junction
character is not a rule character) contains exactly `widths[i] + 2*spacing`
horizontal-rule characters. -/
theorem fancy_borders :
    Table.fancy_format
        ⟨[["a", "bb"], ["cc", "d"]], calculate_widths [["a", "bb"], ["cc", "d"]]⟩
        false false 1 =
      some "┌────┬────┐\n│ a  │ bb │\n│ cc │ d  │\n└────┴────┘\n" ∧
    ∀ (c0 cn : String) (widths : List Nat) (spaces i : Nat), i < widths.length →
      c0.data.count '─' = 0 → cn.data.count '─' = 0 →
      ((borderSegs c0 cn widths spaces).getD i "").data.count '─' =
        widths.getD i 0 + 2 * spaces := by
  constructor
  · decide
  · intro c0 cn widths spaces i hi h0 hn
    have hlen : i < (borderSegs c0 cn widths spaces).length := by
      simpa [borderSegs] using hi
    rw [List.getD_eq_getElem _ _ hlen]
    simp only [borderSegs, List.getElem_map, List.getElem_enum]
    rw [count_data_append]
    have hcorner : (if (i, widths[i]).1 = 0 then c0 else cn).data.count '─' = 0 := by
      by_cases h : i = 0
      · simp [h, h0]
      · simp [h, hn]
    have hcount : (hrule ((i, widths[i]).2 + spaces * 2)).data.count '─' =
        widths[i] + spaces * 2 := by
      show (List.replicate _ '─').count '─' = _
      rw [List.count_replicate]
      simp
    rw [hcorner, hcount, List.getD_eq_getElem _ _ hi, Nat.zero_add]
    omega

/-- Claim C6, witness: the segment-length part of the theorem applied to the
top border of scenario B at column 0, giving 2 + 2·1 = 4 rule characters. -/
theorem fancy_borders_witness :
    ((borderSegs "┌" "┬" [2, 2] 1).getD 0 "").data.count '─' = 4 := by
  have h := fancy_borders.2 "┌" "┬" [2, 2] 1 0 (by decide) (by decide) (by decide)
  simpa using h

theorem lastNonWsByteIdx_append (a b : List Char) :
    lastNonWsByteIdx (a ++ b) =
      match lastNonWsByteIdx b with
      | some i => some (byteLen a + i)
      | none => lastNonWsByteIdx a := by
  induction a with
  | nil =>
    cases h : lastNonWsByteIdx b <;> simp [byteLen, h, lastNonWsByteIdx]
  | cons c a ih =>
    show lastNonWsByteIdx (c :: (a ++ b)) = _
    rw [lastNonWsByteIdx, ih]
    cases h : lastNonWsByteIdx b with
    | some i =>
      simp [byteLen, Nat.add_assoc]
    | none =>
      cases h2 : lastNonWsByteIdx a with
      | some j => simp [lastNonWsByteIdx, h2]
      | none => simp [lastNonWsByteIdx, h2]

theorem all_ws_of_lastNonWsByteIdx_none :
    ∀ cs : List Char, lastNonWsByteIdx cs = none →
      ∀ c ∈ cs, rustIsWhitespace c = true := by
  intro cs
  induction cs with
  | nil => intro _ c hc; cases hc
  | cons d cs ih =>
    intro h c hc
    rw [lastNonWsByteIdx] at h
    cases h2 : lastNonWsByteIdx cs with
    | some i => rw [h2] at h; cases h
    | none =>
      rw [h2] at h
      by_cases hd : rustIsWhitespace d = true
      · rcases List.mem_cons.mp hc with rfl | hc2
        · exact hd
        · exact ih h2 c hc2
      · rw [if_neg hd] at h; cases h

theorem lastNonWsByteIdx_spec :
    ∀ (cs : List Char) (i : Nat), (∀ c ∈ cs, c.utf8Size = 1) →
      lastNonWsByteIdx cs = some i →
        i < cs.length ∧ rustIsWhitespace (cs.getD i ' ') = false := by
  intro cs
  induction cs with
  | nil => intro i _ h; cases h
  | cons c cs ih =>
    intro i hascii h
    rw [lastNonWsByteIdx] at h
    cases h2 : lastNonWsByteIdx cs with
    | some j =>
      rw [h2] at h
      have hc1 : c.utf8Size = 1 := hascii c (by simp)
      have hij : i = 1 + j := by
        rw [hc1] at h
        exact (Option.some_inj.mp h).symm
      obtain ⟨hlt, hws⟩ := ih j (fun c2 hc2 => hascii c2 (by simp [hc2])) h2
      subst hij
      constructor
      · simp only [List.length_cons]
        omega
      · have hg : (c :: cs).getD (1 + j) ' ' = cs.getD j ' ' := by
          rw [Nat.add_comm]
          rfl
        rw [hg]
        exact hws
    | none =>
      rw [h2] at h
      by_cases hd : rustIsWhitespace c = true
      · rw [if_pos hd] at h; cases h
      · rw [if_neg hd] at h
        have hi0 : i = 0 := (Option.some_inj.mp h).symm
        subst hi0
        exact ⟨by simp, by simpa using hd⟩

theorem takeBytes_cons_pos (c : Char) (cs : List Char) (len : Nat) (h : 0 < len) :
    takeBytes (c :: cs) len =
      if c.utf8Size ≤ len then (takeBytes cs (len - c.utf8Size)).map (c :: ·)
      else none := by
  cases len with
  | zero => omega
  | succ k => rfl

theorem takeBytes_ascii :
    ∀ (cs : List Char) (k : Nat), (∀ c ∈ cs, c.utf8Size = 1) →
      takeBytes cs k = some (cs.take k) := by
  intro cs
  induction cs with
  | nil => intro k _; cases k <;> rfl
  | cons c cs ih =>
    intro k h
    cases k with
    | zero => rfl
    | succ k =>
      have h1 : c.utf8Size = 1 := h c (by simp)
      rw [takeBytes_cons_pos c cs (k + 1) (by omega), h1, if_pos (by omega),
        Nat.add_sub_cancel, ih k (fun c2 hc2 => h c2 (by simp [hc2]))]
      rfl

theorem takeBytes_append :
    ∀ (a b : List Char) (k : Nat),
      takeBytes (a ++ b) (byteLen a + k) = (takeBytes b k).map (a ++ ·) := by
  intro a
  induction a with
  | nil =>
    intro b k
    show takeBytes b (0 + k) = _
    rw [Nat.zero_add]
    cases takeBytes b k <;> simp
  | cons c a ih =>
    intro b k
    have hpos := Char.utf8Size_pos c
    have hlen : byteLen (c :: a) + k = c.utf8Size + (byteLen a + k) := by
      show c.utf8Size + byteLen a + k = _
      omega
    rw [List.cons_append, hlen,
      takeBytes_cons_pos c (a ++ b) _ (by omega),
      if_pos (Nat.le_add_right _ _), Nat.add_sub_cancel_left, ih b k]
    cases takeBytes b k <;> simp

theorem trimRow_append (prev : String) (raw : List Char) (i : Nat)
    (hascii : ∀ c ∈ raw, c.utf8Size = 1)
    (hidx : lastNonWsByteIdx raw = some i) :
    trimRow (prev ++ String.mk raw) =
      some (String.mk (prev.data ++ raw.take (i + 1))) := by
  have hdata : (prev ++ String.mk raw).data = prev.data ++ raw :=
    String.data_append prev (String.mk raw)
  rw [trimRow]
  simp only [hdata, lastNonWsByteIdx_append prev.data raw, hidx, Option.getD_some]
  have hl : byteLen prev.data + i + 1 = byteLen prev.data + (i + 1) := by omega
  rw [hl, takeBytes_append prev.data raw (i + 1), takeBytes_ascii raw (i + 1) hascii]
  rfl

theorem rawRow_chars (widths : List Nat) (spaces : Nat) :
    ∀ (fs : List String) (i : Nat) (c : Char),
      c ∈ (rawRow widths spaces fs i).data → (∃ f ∈ fs, c ∈ f.data) ∨ c = ' ' := by
  intro fs
  induction fs with
  | nil =>
    intro i c hc
    simp [rawRow] at hc
  | cons f fs ih =>
    intro i c hc
    simp only [rawRow, String.data_append, padTo, List.mem_append] at hc
    rcases hc with (hcf | hcr) | hcrest
    · exact Or.inl ⟨f, by simp, hcf⟩
    · exact Or.inr (List.eq_of_mem_replicate hcr)
    · rcases ih (i + 1) c hcrest with ⟨g, hg, hcg⟩ | hsp
      · exact Or.inl ⟨g, by simp [hg], hcg⟩
      · exact Or.inr hsp

theorem mem_rawRow_of_mem_field (widths : List Nat) (spaces : Nat) :
    ∀ (fs : List String) (i : Nat) (f : String), f ∈ fs →
      ∀ c ∈ f.data, c ∈ (rawRow widths spaces fs i).data := by
  intro fs
  induction fs with
  | nil => intro i f hf; cases hf
  | cons g fs ih =>
    intro i f hf c hc
    simp only [rawRow, String.data_append, padTo, List.mem_append]
    rcases List.mem_cons.mp hf with rfl | hf2
    · exact Or.inl (Or.inl hc)
    · exact Or.inr (ih (i + 1) f hf2 c hc)

theorem renderLine_spec (widths : List Nat) (spaces : Nat) (r : List String)
    (hascii : ∀ f ∈ r, ∀ c ∈ f.data, c.utf8Size = 1)
    (hnws : ∃ f ∈ r, ∃ c ∈ f.data, rustIsWhitespace c = false) :
    ∃ i, (∀ c ∈ (rawRow widths spaces r 0).data, c.utf8Size = 1) ∧
      lastNonWsByteIdx (rawRow widths spaces r 0).data = some i ∧
      renderLine widths spaces r = (rawRow widths spaces r 0).data.take (i + 1) ∧
      renderLine widths spaces r ≠ [] ∧
      hasTrailingWs (renderLine widths spaces r) = false := by
  have hasciiraw : ∀ c ∈ (rawRow widths spaces r 0).data, c.utf8Size = 1 := by
    intro c hc
    rcases rawRow_chars widths spaces r 0 c hc with ⟨f, hf, hcf⟩ | rfl
    · exact hascii f hf c hcf
    · rfl
  obtain ⟨f, hf, c0, hc0, hws0⟩ := hnws
  have hmem : c0 ∈ (rawRow widths spaces r 0).data :=
    mem_rawRow_of_mem_field widths spaces r 0 f hf c0 hc0
  obtain ⟨i, hi⟩ : ∃ i, lastNonWsByteIdx (rawRow widths spaces r 0).data = some i := by
    cases h : lastNonWsByteIdx (rawRow widths spaces r 0).data with
    | some i => exact ⟨i, rfl⟩
    | none =>
      have hcon := all_ws_of_lastNonWsByteIdx_none _ h c0 hmem
      rw [hws0] at hcon
      cases hcon
  obtain ⟨hlt, hwsi⟩ := lastNonWsByteIdx_spec _ i hasciiraw hi
  have hrl : renderLine widths spaces r = (rawRow widths spaces r 0).data.take (i + 1) := by
    rw [renderLine, hi]
    rfl
  have hlen2 : (renderLine widths spaces r).length = i + 1 := by
    rw [hrl, List.length_take]
    omega
  refine ⟨i, hasciiraw, hi, hrl, ?_, ?_⟩
  · intro hnil
    rw [hnil] at hlen2
    cases hlen2
  · have hlast : (renderLine widths spaces r).getLast? =
        some ((rawRow widths spaces r 0).data.getD i ' ') := by
      rw [List.getLast?_eq_getElem?, hlen2, Nat.add_sub_cancel, hrl]
      rw [List.getElem?_take_of_lt (by omega), List.getElem?_eq_getElem hlt,
        List.getD_eq_getElem _ _ hlt]
    rw [hasTrailingWs, hlast]
    exact hwsi

theorem basicRows_eq (widths : List Nat) (spaces : Nat) :
    ∀ (rs : List (List String)) (prev : String),
      (∀ r ∈ rs, r.length ≤ widths.length) →
      (∀ r ∈ rs, ∀ f ∈ r, ∀ c ∈ f.data, c.utf8Size = 1) →
      (∀ r ∈ rs, ∃ f ∈ r, ∃ c ∈ f.data, rustIsWhitespace c = false) →
      basicRows widths spaces rs prev =
        some (String.mk (prev.data ++ linesChars widths spaces rs)) := by
  intro rs
  induction rs with
  | nil =>
    intro prev _ _ _
    simp only [basicRows, linesChars, List.map_nil, List.flatten_nil, List.append_nil]
  | cons r rs ih =>
    intro prev hfit hascii hnws
    obtain ⟨i, hasciiraw, hi, hrl, hne, htr⟩ :=
      renderLine_spec widths spaces r (hascii r (by simp)) (hnws r (by simp))
    have hfit2 : ∀ r2 ∈ rs, r2.length ≤ widths.length :=
      fun r2 h2 => hfit r2 (by simp [h2])
    have hascii2 : ∀ r2 ∈ rs, ∀ f ∈ r2, ∀ c ∈ f.data, c.utf8Size = 1 :=
      fun r2 h2 => hascii r2 (by simp [h2])
    have hnws2 : ∀ r2 ∈ rs, ∃ f ∈ r2, ∃ c ∈ f.data, rustIsWhitespace c = false :=
      fun r2 h2 => hnws r2 (by simp [h2])
    have hmkraw : prev ++ rawRow widths spaces r 0 =
        prev ++ String.mk ((rawRow widths spaces r 0).data) := rfl
    rw [basicRows]
    simp only [Bind.bind, Option.bind,
      writeFields_eq widths spaces r 0 prev (by simpa using hfit r (by simp)),
      hmkraw, trimRow_append prev _ i hasciiraw hi,
      ih _ hfit2 hascii2 hnws2]
    congr 1
    apply String.ext
    show (String.mk (prev.data ++ (rawRow widths spaces r 0).data.take (i + 1)) ++
        "\n").data ++ linesChars widths spaces rs =
      prev.data ++ linesChars widths spaces (r :: rs)
    rw [String.data_append]
    show prev.data ++ (rawRow widths spaces r 0).data.take (i + 1) ++ ['\n'] ++
        linesChars widths spaces rs =
      prev.data ++ linesChars widths spaces (r :: rs)
    simp only [linesChars, List.map_cons, List.flatten_cons, ← hrl]
    simp [List.append_assoc]

theorem splitLines_append (l : List Char) :
    ∀ rest : List Char, ('\n' ∉ l) →
      splitLines (l ++ '\n' :: rest) = l :: splitLines rest := by
  induction l with
  | nil =>
    intro rest _
    simp [splitLines]
  | cons c l ih =>
    intro rest hl
    have hc : ¬(c = '\n') := fun h => hl (by simp [h])
    rw [List.cons_append, splitLines, if_neg hc, ih rest (fun h => hl (by simp [h]))]

theorem splitLines_flatten :
    ∀ lines : List (List Char), (∀ l ∈ lines, '\n' ∉ l) →
      splitLines ((lines.map (fun l => l ++ ['\n'])).flatten) = lines ++ [[]] := by
  intro lines
  induction lines with
  | nil => intro _; rfl
  | cons l ls ih =>
    intro h
    simp only [List.map_cons, List.flatten_cons, List.append_assoc, List.singleton_append]
    rw [splitLines_append l _ (h l (by simp)), ih (fun l2 h2 => h l2 (by simp [h2]))]
    rfl

theorem renderLine_no_newline (widths : List Nat) (spaces : Nat) (r : List String)
    (hnl : ∀ f ∈ r, '\n' ∉ f.data) : '\n' ∉ renderLine widths spaces r := by
  intro hmem
  have hraw : '\n' ∈ (rawRow widths spaces r 0).data :=
    List.take_subset _ _ hmem
  rcases rawRow_chars widths spaces r 0 '\n' hraw with ⟨f, hf, hcf⟩ | hsp
  · exact hnl f hf hcf
  · cases hsp

/-- Claim C2, amended: for every table whose records fit within the widths,
whose fields consist of single-byte (ASCII) characters none of which is a
newline, and each of whose records has at least one non-whitespace
character, `basic_format` succeeds and its output splits at newlines into
exactly one line per record, in original record order, each line free of
trailing whitespace (plus the empty piece after the final newline).  The
restrictions are forced by the code: a row writing only whitespace makes the
buffer-wide trim delete the previous row's newline, and a row whose last
non-whitespace character is multi-byte makes the byte-indexed `truncate`
panic. -/
theorem basic_format_lines (t : Table) (spaces : Nat)
    (hfit : ∀ r ∈ t.records, r.length ≤ t.widths.length)
    (hascii : ∀ r ∈ t.records, ∀ f ∈ r, ∀ c ∈ f.data, c.utf8Size = 1)
    (hnl : ∀ r ∈ t.records, ∀ f ∈ r, '\n' ∉ f.data)
    (hnws : ∀ r ∈ t.records, ∃ f ∈ r, ∃ c ∈ f.data, rustIsWhitespace c = false) :
    t.basic_format spaces = some (String.mk (linesChars t.widths spaces t.records)) ∧
      splitLines (linesChars t.widths spaces t.records) =
        (t.records.map (renderLine t.widths spaces)) ++ [[]] ∧
      ∀ r ∈ t.records, renderLine t.widths spaces r ≠ [] ∧
        hasTrailingWs (renderLine t.widths spaces r) = false := by
  refine ⟨?_, ?_, ?_⟩
  · rw [Table.basic_format, basicRows_eq t.widths spaces t.records "" hfit hascii hnws]
    rfl
  · have hmm : t.records.map (fun r => renderLine t.widths spaces r ++ ['\n']) =
        (t.records.map (renderLine t.widths spaces)).map (fun l => l ++ ['\n']) := by
      rw [List.map_map]
      rfl
    rw [linesChars, hmm]
    exact splitLines_flatten (t.records.map (renderLine t.widths spaces))
      (by
        intro l hl
        obtain ⟨r, hr, rfl⟩ := List.mem_map.mp hl
        exact renderLine_no_newline t.widths spaces r (hnl r hr))
  · intro r hr
    obtain ⟨i, _, _, _, hne, htr⟩ :=
      renderLine_spec t.widths spaces r (hascii r hr) (hnws r hr)
    exact ⟨hne, htr⟩

/-- Claim C2, witness: the amended theorem applied to the table of
scenario A. -/
theorem basic_format_lines_witness :
    Table.basic_format ⟨[["a", "bb"], ["cc", "d"]], [2, 2]⟩ 1 =
        some (String.mk (linesChars [2, 2] 1 [["a", "bb"], ["cc", "d"]])) ∧
      splitLines (linesChars [2, 2] 1 [["a", "bb"], ["cc", "d"]]) =
        ([["a", "bb"], ["cc", "d"]].map (renderLine [2, 2] 1)) ++ [[]] ∧
      ∀ r ∈ [["a", "bb"], ["cc", "d"]], renderLine [2, 2] 1 r ≠ [] ∧
        hasTrailingWs (renderLine [2, 2] 1 r) = false :=
  basic_format_lines ⟨[["a", "bb"], ["cc", "d"]], [2, 2]⟩ 1 (by decide) (by decide)
    (by decide) (by decide)

/-- Claim C10, amended: neither formatter can ever return the error variant
— the output is accumulated in an in-memory string whose write operations
cannot fail, so no error value exists in the model — but they do not always
return success either: ragged tables can panic on out-of-bounds width
indexing (see the counterexample), and the basic trim can panic on
multi-byte trailing characters.  Under the preconditions that every record
fits within the widths (and, for `basic_format`, that fields are single-byte
and every record has non-whitespace content), both formatters return
success. -/
theorem formats_no_error (t : Table) (headers separators : Bool) (spaces : Nat)
    (hfit : ∀ r ∈ t.records, r.length ≤ t.widths.length)
    (hascii : ∀ r ∈ t.records, ∀ f ∈ r, ∀ c ∈ f.data, c.utf8Size = 1)
    (hnws : ∀ r ∈ t.records, ∃ f ∈ r, ∃ c ∈ f.data, rustIsWhitespace c = false) :
    (t.basic_format spaces).isSome ∧
      (t.fancy_format headers separators spaces).isSome := by
  constructor
  · rw [Table.basic_format, basicRows_eq t.widths spaces t.records "" hfit hascii hnws]
    rfl
  · rw [fancy_format_eq t headers separators spaces hfit]
    rfl

/-- Claim C10, witness: the amended theorem applied to the table of
scenario A. -/
theorem formats_no_error_witness :
    (Table.basic_format ⟨[["a", "bb"], ["cc", "d"]], [2, 2]⟩ 1).isSome ∧
      (Table.fancy_format ⟨[["a", "bb"], ["cc", "d"]], [2, 2]⟩ true true 1).isSome :=
  formats_no_error ⟨[["a", "bb"], ["cc", "d"]], [2, 2]⟩ true true 1 (by decide)
    (by decide) (by decide)

end RTab
